import Mathlib

/-!
# Verification of beacon-metrics-gazer

A shallow embedding, in Lean 4, of the participation-flag range aggregator
and poll-cycle orchestration of `src/src/main.rs`, together with models of
the parts of the repository the binary calls but whose sources are not in
the repository snapshot (the `ssz_state` fork resolver and offset navigator,
the `metrics` gauge registry); those are modelled from the specification and
marked as such in their doc comments.

Modelling conventions:
* machine integers (`u8`, `u32`, `usize`) are `Nat`; the bitwise `&` of the
  source is `&&&` on `Nat`, which agrees with `u8 &` on byte values;
* the `f32`/`f64` ratios of the source are modelled as exact rationals `ℚ`
  (the source divides `count as f32` by `width as f32`, which is exact for
  all realistic validator counts; `0.0 / 0.0 = NaN` has no rational
  counterpart and is collapsed to `ℚ`'s `0 / 0 = 0` convention — noted where
  it matters);
* a Rust panic (out-of-bounds slice indexing) is modelled as `Option.none`:
  the computation aborts and yields no result;
* fallible Rust functions returning `Result` are modelled with `Except`.
-/

namespace BeaconMetricsGazer

/-! ## Participation flags and the range aggregator (src/src/main.rs) -/

/-- Source constant `TIMELY_TARGET_FLAG_INDEX: u8 = 1`. -/
def TIMELY_TARGET_FLAG_INDEX : Nat := 1

/-- Source constant `TIMELY_TARGET: u8 = 1 << TIMELY_TARGET_FLAG_INDEX`. -/
def TIMELY_TARGET : Nat := 1 <<< TIMELY_TARGET_FLAG_INDEX

/-- Source `fn has_flag(flag: u8, mask: u8) -> bool { flag & mask == mask }`. -/
def has_flag (flag mask : Nat) : Bool := flag &&& mask == mask

/-- Rust's `std::ops::Range<usize>` (`start..end`); `end` is a Lean keyword,
so the field is called `stop`. -/
structure URange where
  start : Nat
  stop : Nat
  deriving DecidableEq, Repr

/-- The part of `ssz_state::StatePartial` the aggregator reads: the
`previous_epoch_participation` byte sequence, one flag byte per validator. -/
structure StatePartial where
  previous_epoch_participation : List Nat
  deriving DecidableEq

/-- Rust `v[start..end]` on a `Vec<u8>`: yields the sub-slice when
`start <= end && end <= v.len()`, and panics (`none`) otherwise. -/
def sliceRange (v : List Nat) (r : URange) : Option (List Nat) :=
  if r.start ≤ r.stop ∧ r.stop ≤ v.length then
    some ((v.drop r.start).take (r.stop - r.start))
  else none

/-- Source `type IndexRanges = Vec<(String, Range<usize>)>`. -/
abbrev IndexRanges := List (String × URange)

/-- Source `type ParticipationByRange = Vec<(String, Range<usize>, f32)>`,
ratios modelled as `ℚ`. -/
abbrev ParticipationByRange := List (String × URange × ℚ)

/-- Source `fn group_target_participation`: for each named range, slice
`previous_epoch_participation[range]` (panicking when the range is out of
bounds or reversed), count the flag bytes with the `TIMELY_TARGET` bit set,
and divide by `range.end - range.start`.  `none` models a panic aborting the
whole call. -/
def group_target_participation (ranges : List (String × URange)) (state : StatePartial) :
    Option (List (String × URange × ℚ)) :=
  ranges.mapM fun p =>
    (sliceRange state.previous_epoch_participation p.2).map fun s =>
      let target_count : Nat := (s.map fun f => if has_flag f TIMELY_TARGET then 1 else 0).sum
      let target_ratio : ℚ := (target_count : ℚ) / ((p.2.stop - p.2.start : Nat) : ℚ)
      (p.1, p.2, target_ratio)

/-! ## Gauge store and publication (src/src/main.rs with the `metrics` module) -/

/-- The labelled gauge values held by the metrics registry. -/
abbrev GaugeStore := List (String × ℚ)

/-- Modelled from the spec: `metrics::set_gauge` sets the gauge series for
one label, "overwritten every poll cycle" (§6); the `metrics` module is not
in the repository snapshot.  The store is an association list whose most
recent entry for a label is its published value (`List.lookup`). -/
def set_gauge (store : GaugeStore) (label : String) (v : ℚ) : GaugeStore :=
  (label, v) :: store

/-- Source `fn set_participation_to_metrics`: one `set_gauge` call per
report entry, keyed by the range name. -/
def set_participation_to_metrics (participation_by_range : List (String × URange × ℚ))
    (store : GaugeStore) : GaugeStore :=
  participation_by_range.foldl (fun st e => set_gauge st e.1 e.2.2) store

/-! ## The poll loop (src/src/main.rs, `main`'s spawned task) -/

/-- Outcome of one `fetch_epoch_participation` call: a decoded
`StatePartial`, or an `Err` (network / schema / decode failure) carrying its
message. -/
inductive FetchOutcome where
  | fetchErr (msg : String)
  | fetchOk (state : StatePartial)

/-- One iteration of the spawned poll task: on `Err` the error is logged and
nothing else happens; on `Ok` the participation is grouped and published.
The `Bool` is `false` when the iteration panicked (a panic in the task body
aborts the task, so no further iteration runs). -/
def poll_iteration (ranges : List (String × URange)) (f : FetchOutcome)
    (store : GaugeStore) : GaugeStore × Bool :=
  match f with
  | .fetchErr _ => (store, true)
  | .fetchOk state =>
    match group_target_participation ranges state with
    | none => (store, false)
    | some pbr => (set_participation_to_metrics pbr store, true)

/-- An iteration fails when the fetch returned `Err`, or when the
aggregation panicked. -/
def iteration_failed (ranges : List (String × URange)) (f : FetchOutcome) : Prop :=
  match f with
  | .fetchErr _ => True
  | .fetchOk state => group_target_participation ranges state = none

/-- The spawned poll task run over a list of successive fetch outcomes:
each iteration runs in turn, and a panicked iteration kills the task so the
remaining outcomes are never processed.  Returns the final gauge store and
whether the task is still alive. -/
def poll_loop (ranges : List (String × URange)) :
    List FetchOutcome → GaugeStore → GaugeStore × Bool
  | [], store => (store, true)
  | f :: rest, store =>
    match poll_iteration ranges f store with
    | (store', true) => poll_loop ranges rest store'
    | (store', false) => (store', false)

/-! ## Startup (src/src/main.rs, `main` before the spawn) -/

/-- The CLI surface `struct Cli` (the `url` field is irrelevant here). -/
structure Cli where
  ranges : Option String
  ranges_file : Option String
  dump : Bool

/-- The `ranges_str` computation at the top of `main`: `--ranges` wins,
otherwise `--ranges_file` is resolved, otherwise startup fails. -/
def resolve_ranges_str (cli : Cli) (resolve_path_or_url : String → Except String String) :
    Except String String :=
  match cli.ranges with
  | some s => Except.ok s
  | none =>
    match cli.ranges_file with
    | some p => resolve_path_or_url p
    | none => Except.error "Must set --groups or --groups_file"

/-- The startup sequence of `main` followed by the spawned poll task:
resolve and parse the ranges, fetch genesis, fetch config — each behind
Rust's `?`, which is exactly this early-return match, so any failure
returns the error from `main` and terminates the process before the poll
task is spawned.  External collaborators (`resolve_path_or_url`,
`parse_ranges`, the two fetches) are parameters. -/
def run_main (cli : Cli) (resolve_path_or_url : String → Except String String)
    (parse_ranges : String → Except String (List (String × URange)))
    (fetch_genesis : Except String String) (fetch_config : Except String String)
    (fetches : List FetchOutcome) (store : GaugeStore) :
    Except String (GaugeStore × Bool) :=
  match resolve_ranges_str cli resolve_path_or_url with
  | .error e => .error e
  | .ok ranges_str =>
    match parse_ranges ranges_str with
    | .error e => .error e
    | .ok ranges =>
      match fetch_genesis with
      | .error e => .error e
      | .ok _ =>
        match fetch_config with
        | .error e => .error e
        | .ok _ => .ok (poll_loop ranges fetches store)

/-! ## The spec's idealized aggregator (§4.4), for comparison -/

/-- Error taxonomy of the spec's §4.4 `aggregate`; no such type exists in
the source. -/
inductive RangeError where
  | Empty
  | OutOfBounds
  deriving DecidableEq, Repr

/-- Modelled from the spec (§4.4), for comparison with the source's
`group_target_participation`: "For each range: fail with `RangeError::Empty`
if `start >= end`; fail with `RangeError::OutOfBounds` if
`end > flags.len()`. Otherwise compute `count` and `ratio`." -/
def aggregateSpec (flags : List Nat) (ranges : List (String × URange)) (mask : Nat) :
    Except RangeError (List (String × ℚ)) :=
  ranges.mapM fun p =>
    if p.2.stop ≤ p.2.start then Except.error RangeError.Empty
    else if flags.length < p.2.stop then Except.error RangeError.OutOfBounds
    else
      let count : Nat := (((flags.drop p.2.start).take (p.2.stop - p.2.start)).filter
        (fun f => has_flag f mask)).length
      Except.ok (p.1, (count : ℚ) / ((p.2.stop - p.2.start : Nat) : ℚ))

/-! ## Fork resolver (ssz_state module, absent from the snapshot) -/

/-- Error of the fork resolver per §4.1. -/
inductive SchemaError where
  | NoApplicableFork
  deriving DecidableEq, Repr

/-- Modelled from the spec: the fork resolver (`resolve`, §4.1) lives in the
`ssz_state` module, which is not in the repository snapshot.  "Scans the
schedule for the entry with the greatest `activationEpoch ≤ epoch`; the
boundary is inclusive.  Fails with `SchemaError::NoApplicableFork` if no
entry qualifies (schedule empty or epoch precedes the earliest entry)."
Since the schedule is strictly increasing by epoch, the last qualifying
entry is the greatest one. -/
def resolveFork {α : Type} (schedule : List (Nat × α)) (epoch : Nat) : Except SchemaError α :=
  match (schedule.filter (fun p => p.1 ≤ epoch)).getLast? with
  | some p => Except.ok p.2
  | none => Except.error SchemaError.NoApplicableFork

/-! ## Offset navigator (ssz_state module, absent from the snapshot) -/

/-- Field kind per §3: inline fixed-width content, or a variable-size field
serialized as a 4-byte offset pointer. -/
inductive FieldKind where
  | Fixed (width : Nat)
  | Variable
  deriving DecidableEq, Repr

/-- One field of a container schema (§3 `FieldDescriptor`). -/
structure FieldDescriptor where
  name : String
  kind : FieldKind
  deriving DecidableEq, Repr

/-- Errors of the offset navigator per §4.2 and §7 (`DecodeError` plus the
unknown-field `SchemaError`). -/
inductive NavError where
  | Truncated
  | InvalidOffsets
  | UnknownField
  deriving DecidableEq, Repr

/-- Bytes a field occupies in the fixed region: its width when `Fixed`, the
4-byte offset pointer when `Variable` (§4.2 step 1). -/
def fieldSlotWidth : FieldKind → Nat
  | .Fixed w => w
  | .Variable => 4

/-- Length of the fixed region: sum of the slot widths in declaration order
(§4.2 step 1). -/
def fixedRegionLength (schema : List FieldDescriptor) : Nat :=
  (schema.map fun f => fieldSlotWidth f.kind).sum

/-- Read a 4-byte little-endian unsigned offset at `pos` (§4.2); positions
are only read inside the already-length-checked fixed region, so the
out-of-range default cannot actually fire there. -/
def readU32LE (buf : List Nat) (pos : Nat) : Nat :=
  buf.getD pos 0 + 256 * buf.getD (pos + 1) 0 + 65536 * buf.getD (pos + 2) 0 +
    16777216 * buf.getD (pos + 3) 0

/-- The offsets stored for the variable fields, in declaration order, read
from each `Variable` field's pointer slot (`pos` is the running slot
position). -/
def varOffsets (buf : List Nat) : List FieldDescriptor → Nat → List Nat
  | [], _ => []
  | f :: rest, pos =>
    match f.kind with
    | .Fixed w => varOffsets buf rest (pos + w)
    | .Variable => readU32LE buf pos :: varOffsets buf rest (pos + 4)

/-- Locate `target` in the schema: its kind, its slot position, and how many
variable fields precede it (§4.2 steps 2–3, 5). -/
def findField : List FieldDescriptor → String → Nat → Nat →
    Option (FieldKind × Nat × Nat)
  | [], _, _, _ => none
  | f :: rest, target, pos, vIdx =>
    if f.name = target then some (f.kind, pos, vIdx)
    else
      match f.kind with
      | .Fixed w => findField rest target (pos + w) vIdx
      | .Variable => findField rest target (pos + 4) (vIdx + 1)

/-- The §4.2 step-4 offset validation, checked over the offsets chain with
`buffer.len()` appended as sentinel: pairwise non-decreasing. -/
def offsetsChainOk : List Nat → Bool
  | [] => true
  | [_] => true
  | a :: b :: rest => a ≤ b && offsetsChainOk (b :: rest)

/-- The §4.2 step-4 offset validation: every offset is at least the fixed
region length and at most the buffer length, and the chain is
non-decreasing. -/
def offsetsValid (offs : List Nat) (fixedLen bufLen : Nat) : Bool :=
  offs.all (fun o => fixedLen ≤ o && o ≤ bufLen) && offsetsChainOk offs

/-- Modelled from the spec: the offset navigator's `extract` (§4.2) lives in
the `ssz_state` module, which is not in the repository snapshot.  Computes
the half-open byte range of the target field: the declared slot for a
`Fixed` field, the `[offset_i, offset_next)` pair for a `Variable` field
after validating the whole offsets chain, with the spec's `Truncated`,
`InvalidOffsets` and unknown-field failures. -/
def extractRange (buf : List Nat) (schema : List FieldDescriptor) (target : String) :
    Except NavError URange :=
  let fixedLen := fixedRegionLength schema
  if buf.length < fixedLen then Except.error NavError.Truncated
  else
    match findField schema target 0 0 with
    | none => Except.error NavError.UnknownField
    | some (.Fixed w, pos, _) => Except.ok ⟨pos, pos + w⟩
    | some (.Variable, _, vIdx) =>
      let offs := varOffsets buf schema 0 ++ [buf.length]
      if offsetsValid offs fixedLen buf.length then
        Except.ok ⟨offs.getD vIdx 0, offs.getD (vIdx + 1) 0⟩
      else Except.error NavError.InvalidOffsets

/-- Modelled from the spec: `extract` (§4.2) returns the target field's
bytes by slicing the buffer at the computed range; the slice is the
panicking Rust range indexing, so `none` models an out-of-bounds read
attempt. -/
def extract (buf : List Nat) (schema : List FieldDescriptor) (target : String) :
    Option (Except NavError (List Nat)) :=
  match extractRange buf schema target with
  | Except.error e => some (Except.error e)
  | Except.ok r => (sliceRange buf r).map Except.ok

/-! ## Property-side definitions used by the claim statements -/

/-- Number of indices `i ∈ [start, stop)` whose flag byte has the
`TIMELY_TARGET` mask bits set — the counting set of the claims. -/
def countTarget (flags : List Nat) (r : URange) : Nat :=
  ((List.range' r.start (r.stop - r.start)).filter
    (fun i => has_flag (flags.getD i 0) TIMELY_TARGET)).length

/-! ## Helper lemmas about the aggregator -/

/-- Summing the 0/1 indicator over a slice equals counting the matching
indices of the underlying list. -/
lemma sum_indicator_slice (l : List Nat) (m : Nat) :
    ∀ (len start : Nat), start + len ≤ l.length →
      (((l.drop start).take len).map fun f => if has_flag f m then 1 else 0).sum
        = ((List.range' start len).filter fun i => has_flag (l.getD i 0) m).length := by
  intro len
  induction len with
  | zero => intro start _; simp
  | succ n ih =>
    intro start h
    have hlt : start < l.length := by omega
    rw [List.drop_eq_getElem_cons hlt, List.take_succ_cons,
      show List.range' start (n + 1) = start :: List.range' (start + 1) n from rfl,
      List.map_cons, List.sum_cons, List.filter_cons, ih (start + 1) (by omega),
      List.getD_eq_getElem l 0 hlt]
    by_cases hf : has_flag l[start] m = true
    · simp [hf]
      omega
    · simp [hf]

/-- When the range is within bounds the Rust slice indexing succeeds. -/
lemma sliceRange_eq_some (flags : List Nat) (r : URange) (h1 : r.start ≤ r.stop)
    (h2 : r.stop ≤ flags.length) :
    sliceRange flags r = some ((flags.drop r.start).take (r.stop - r.start)) := by
  simp [sliceRange, h1, h2]

/-- On ranges that are ordered and within bounds, the aggregator returns one
entry per range, whose ratio is the matching count over the range width. -/
lemma group_eq_of_inbounds (flags : List Nat) :
    ∀ (ranges : List (String × URange)),
      (∀ p ∈ ranges, p.2.start ≤ p.2.stop ∧ p.2.stop ≤ flags.length) →
      group_target_participation ranges ⟨flags⟩ =
        some (ranges.map fun p =>
          (p.1, p.2, (countTarget flags p.2 : ℚ) / ((p.2.stop - p.2.start : Nat) : ℚ))) := by
  intro ranges
  induction ranges with
  | nil => intro _; rfl
  | cons p rest ih =>
    intro h
    obtain ⟨h1, h2⟩ := h p (List.mem_cons_self p rest)
    have hs : p.2.start + (p.2.stop - p.2.start) ≤ flags.length := by omega
    have hcount := sum_indicator_slice flags TIMELY_TARGET (p.2.stop - p.2.start) p.2.start hs
    have hrest := ih fun q hq => h q (List.mem_cons_of_mem p hq)
    simp only [group_target_participation] at hrest ⊢
    rw [List.mapM_cons, hrest, sliceRange_eq_some flags p.2 h1 h2]
    simp only [Option.map_some', Option.some_bind, Option.pure_def, List.map_cons]
    rw [hcount, countTarget]
    rfl

/-- A single element mapped to `none` makes the whole `mapM` `none`: one
panicking range aborts the whole aggregation. -/
lemma mapM_eq_none {α β : Type} (f : α → Option β) :
    ∀ (l : List α) (x : α), x ∈ l → f x = none → l.mapM f = none := by
  intro l
  induction l with
  | nil => intro x hx; cases hx
  | cons a t ih =>
    intro x hx hfx
    rcases List.mem_cons.mp hx with rfl | hmem
    · rw [List.mapM_cons]
      simp [hfx]
    · rw [List.mapM_cons, ih x hmem hfx]
      cases hfa : f a <;> simp

/-- Two equal-length flag lists that agree on `[s, s+n)` have equal slices
there. -/
lemma slice_eq_of_agree (l1 l2 : List Nat) (hlen : l1.length = l2.length) :
    ∀ (n s : Nat), s + n ≤ l1.length →
      (∀ i, s ≤ i → i < s + n → l1.getD i 0 = l2.getD i 0) →
      (l1.drop s).take n = (l2.drop s).take n := by
  intro n
  induction n with
  | zero => intro s _ _; simp
  | succ m ih =>
    intro s hle hag
    have h1 : s < l1.length := by omega
    have h2 : s < l2.length := by omega
    rw [List.drop_eq_getElem_cons h1, List.drop_eq_getElem_cons h2,
      List.take_succ_cons, List.take_succ_cons]
    have hhead : l1[s] = l2[s] := by
      have hs := hag s (le_refl s) (by omega)
      rwa [List.getD_eq_getElem l1 0 h1, List.getD_eq_getElem l2 0 h2] at hs
    rw [hhead, ih (s + 1) (by omega) fun i hi1 hi2 => hag i (by omega) (by omega)]

/-! ## C1 -/

/-- C1: for every flag sequence and in-bounds non-empty ranges, the
aggregator counts exactly the indices whose flag byte has all
`TIMELY_TARGET` mask bits set (`flags[i] & mask == mask`, mask `0b010`) and
returns `count / (end - start)`; in particular, on flags
`[0,2,2,0,2,3,2,0,2,2]` range `[0,5)` yields `0.6` and range `[5,10)` yields
`0.8`. -/
theorem C1_aggregator_counts_and_ratio :
    (∀ (flags : List Nat) (ranges : List (String × URange)),
        (∀ p ∈ ranges, p.2.start < p.2.stop ∧ p.2.stop ≤ flags.length) →
        group_target_participation ranges ⟨flags⟩ =
          some (ranges.map fun p =>
            (p.1, p.2, (countTarget flags p.2 : ℚ) / ((p.2.stop - p.2.start : Nat) : ℚ)))) ∧
    TIMELY_TARGET = 0b010 ∧
    group_target_participation [("A", ⟨0, 5⟩), ("B", ⟨5, 10⟩)]
        ⟨[0, 2, 2, 0, 2, 3, 2, 0, 2, 2]⟩ =
      some [("A", ⟨0, 5⟩, 0.6), ("B", ⟨5, 10⟩, 0.8)] := by
  refine ⟨fun flags ranges h =>
    group_eq_of_inbounds flags ranges fun p hp => ⟨(h p hp).1.le, (h p hp).2⟩, rfl, ?_⟩
  simp [group_target_participation, sliceRange, has_flag, TIMELY_TARGET,
    TIMELY_TARGET_FLAG_INDEX, List.mapM, List.mapM.loop]
  norm_num [show (3 : Nat) &&& 2 = 2 from by decide]

/-- Closed instance of C1's quantified part at a concrete input. -/
theorem C1_aggregator_counts_and_ratio_witness :
    group_target_participation [("A", ⟨0, 5⟩)] ⟨[0, 2, 2, 0, 2]⟩ =
      some [("A", ⟨0, 5⟩,
        (countTarget [0, 2, 2, 0, 2] ⟨0, 5⟩ : ℚ) / ((5 - 0 : Nat) : ℚ))] :=
  C1_aggregator_counts_and_ratio.1 [0, 2, 2, 0, 2] [("A", ⟨0, 5⟩)] (by decide)

/-! ## C2 -/

/-- C2 counterexample: on flags `[0]` and range `[0,2)` (so
`end > flags.len()`), the source aggregation panics — the slice indexing
aborts with no result (`none`) — whereas the spec's §4.4 `aggregate` demands
the value `RangeError::OutOfBounds`; the source has no `RangeError` at
all. -/
theorem C2_counterexample :
    group_target_participation [("x", ⟨0, 2⟩)] ⟨[0]⟩ = none ∧
    aggregateSpec [0] [("x", ⟨0, 2⟩)] TIMELY_TARGET =
      Except.error RangeError.OutOfBounds := by
  exact ⟨rfl, rfl⟩

/-- C2 amended: for every supplied range whose `end` exceeds the flag
sequence's length, the aggregation panics — the whole call aborts with no
result — and (by the slice model) it never reads outside the flag
sequence. -/
theorem C2_oob_range_panics :
    ∀ (flags : List Nat) (ranges : List (String × URange)) (p : String × URange),
      p ∈ ranges → flags.length < p.2.stop →
      group_target_participation ranges ⟨flags⟩ = none := by
  intro flags ranges p hp hlt
  apply mapM_eq_none _ ranges p hp
  have hnone : sliceRange flags p.2 = none := by
    simp only [sliceRange, ite_eq_right_iff]
    intro hc
    omega
  simp [hnone]

/-- Closed instance of C2's amended theorem at a concrete input. -/
theorem C2_oob_range_panics_witness :
    group_target_participation [("x", ⟨0, 3⟩), ("y", ⟨0, 1⟩)] ⟨[7, 7]⟩ = none :=
  C2_oob_range_panics [7, 7] [("x", ⟨0, 3⟩), ("y", ⟨0, 1⟩)] ("x", ⟨0, 3⟩)
    (by decide) (by decide)

/-! ## C3 -/

/-- C3 counterexample: on the spec's own flags and the empty range `[3,3)`,
the source aggregation does not fail at all — it produces a report entry
with ratio `0 / 0` (`0.0f32 / 0.0f32 = NaN` in the source; `ℚ` collapses
`0 / 0` to `0`) — whereas the spec's §4.4 `aggregate` demands
`RangeError::Empty`. -/
theorem C3_counterexample :
    group_target_participation [("x", ⟨3, 3⟩)] ⟨[0, 2, 2, 0, 2, 3, 2, 0, 2, 2]⟩ =
      some [("x", ⟨3, 3⟩, (0 : ℚ) / 0)] ∧
    aggregateSpec [0, 2, 2, 0, 2, 3, 2, 0, 2, 2] [("x", ⟨3, 3⟩)] TIMELY_TARGET =
      Except.error RangeError.Empty := by
  constructor
  · simp [group_target_participation, sliceRange, List.mapM, List.mapM.loop]
  · rfl

/-- C3 amended: for a range with `start == end <= flags.len()` the code
produces a report entry whose ratio is the `0 / 0` division (a `NaN` gauge
value in the source) instead of failing; for a range with `start > end` the
slice indexing panics and the aggregation aborts with no result. -/
theorem C3_empty_range_behavior :
    (∀ (flags : List Nat) (label : String) (k : Nat), k ≤ flags.length →
        group_target_participation [(label, ⟨k, k⟩)] ⟨flags⟩ =
          some [(label, ⟨k, k⟩, (0 : ℚ) / 0)]) ∧
    (∀ (flags : List Nat) (label : String) (r : URange), r.stop < r.start →
        group_target_participation [(label, r)] ⟨flags⟩ = none) := by
  constructor
  · intro flags label k hk
    simp [group_target_participation, sliceRange, hk, List.mapM, List.mapM.loop]
  · intro flags label r hr
    have hnone : sliceRange flags r = none := by
      simp only [sliceRange, ite_eq_right_iff]
      intro hc
      omega
    simp [group_target_participation, hnone, List.mapM, List.mapM.loop]

/-- Closed instance of C3's amended theorem at a concrete input. -/
theorem C3_empty_range_behavior_witness :
    group_target_participation [("x", ⟨3, 3⟩)] ⟨[1, 1, 1]⟩ =
      some [("x", ⟨3, 3⟩, (0 : ℚ) / 0)] :=
  C3_empty_range_behavior.1 [1, 1, 1] "x" 3 (by decide)

/-! ## C10 -/

/-- C10: the report depends only on the flag bytes inside the supplied
ranges — two equal-length flag sequences agreeing on every index inside
every supplied range produce identical reports.  (The source function takes
`&StatePartial` by shared reference and its embedding is a pure function, so
it cannot modify the flag sequence.) -/
theorem C10_report_depends_only_on_ranged_flags :
    ∀ (flags1 flags2 : List Nat) (ranges : List (String × URange)),
      flags1.length = flags2.length →
      (∀ p ∈ ranges, ∀ i, p.2.start ≤ i → i < p.2.stop →
        flags1.getD i 0 = flags2.getD i 0) →
      group_target_participation ranges ⟨flags1⟩ =
        group_target_participation ranges ⟨flags2⟩ := by
  intro flags1 flags2 ranges hlen
  induction ranges with
  | nil => intro _; rfl
  | cons p rest ih =>
    intro h
    have hrest := ih fun q hq => h q (List.mem_cons_of_mem p hq)
    have hslice : sliceRange flags1 p.2 = sliceRange flags2 p.2 := by
      by_cases hc : p.2.start ≤ p.2.stop ∧ p.2.stop ≤ flags2.length
      · have hc1 : p.2.start ≤ p.2.stop ∧ p.2.stop ≤ flags1.length := by omega
        rw [sliceRange_eq_some flags1 p.2 hc1.1 hc1.2,
          sliceRange_eq_some flags2 p.2 hc.1 hc.2,
          slice_eq_of_agree flags1 flags2 hlen (p.2.stop - p.2.start) p.2.start (by omega)
            fun i hi1 hi2 => h p (List.mem_cons_self p rest) i hi1 (by omega)]
      · have hc1 : ¬(p.2.start ≤ p.2.stop ∧ p.2.stop ≤ flags1.length) := by omega
        simp only [sliceRange, if_neg hc, if_neg hc1]
    simp only [group_target_participation] at hrest ⊢
    rw [List.mapM_cons, List.mapM_cons]
    show ((sliceRange flags1 p.2).map _ >>= _) = ((sliceRange flags2 p.2).map _ >>= _)
    rw [hslice, hrest]

/-- Closed instance of C10 at a concrete input: the sequences differ at
index 1, which lies outside the single range `[0,1)`. -/
theorem C10_report_depends_only_on_ranged_flags_witness :
    group_target_participation [("a", ⟨0, 1⟩)] ⟨[2, 5]⟩ =
      group_target_participation [("a", ⟨0, 1⟩)] ⟨[2, 9]⟩ :=
  C10_report_depends_only_on_ranged_flags [2, 5] [2, 9] [("a", ⟨0, 1⟩)] rfl
    (by
      intro p hp i hi1 hi2
      rcases List.mem_singleton.mp hp with rfl
      have hi : i < 1 := hi2
      have : i = 0 := by omega
      subst this
      rfl)

/-! ## C4 -/

/-- Every gauge value readable after publishing a report is either one of
the report's ratios (under its label) or a value the store already held. -/
lemma lookup_publish (participation_by_range : List (String × URange × ℚ)) :
    ∀ (store : GaugeStore) (l : String) (v : ℚ),
      (set_participation_to_metrics participation_by_range store).lookup l = some v →
      (∃ e ∈ participation_by_range, e.1 = l ∧ e.2.2 = v) ∨ store.lookup l = some v := by
  induction participation_by_range with
  | nil => intro store l v h; exact Or.inr h
  | cons e rest ih =>
    intro store l v h
    rcases ih (set_gauge store e.1 e.2.2) l v h with h1 | h2
    · obtain ⟨e', he', h'⟩ := h1
      exact Or.inl ⟨e', List.mem_cons_of_mem e he', h'⟩
    · by_cases heq : l = e.1
      · subst heq
        simp [set_gauge, List.lookup] at h2
        exact Or.inl ⟨e, List.mem_cons_self e rest, rfl, h2⟩
      · have hbeq : (l == e.1) = false := beq_eq_false_iff_ne.mpr heq
        right
        simpa [set_gauge, List.lookup, hbeq] using h2

/-- C4: for in-bounds non-empty ranges, one aggregation pass yields exactly
one report entry per supplied range carrying its label, every ratio lies in
`[0, 1]`, and every value published by `set_participation_to_metrics` is one
of those ratios (or a previously held value). -/
theorem C4_one_entry_per_range_ratio_in_unit_interval :
    ∀ (flags : List Nat) (ranges : List (String × URange)) (store : GaugeStore),
      (∀ p ∈ ranges, p.2.start < p.2.stop ∧ p.2.stop ≤ flags.length) →
      ∃ pbr, group_target_participation ranges ⟨flags⟩ = some pbr ∧
        pbr.map (fun e => (e.1, e.2.1)) = ranges ∧
        (∀ e ∈ pbr, 0 ≤ e.2.2 ∧ e.2.2 ≤ 1) ∧
        (∀ (l : String) (v : ℚ),
          (set_participation_to_metrics pbr store).lookup l = some v →
          (∃ e ∈ pbr, e.1 = l ∧ e.2.2 = v) ∨ store.lookup l = some v) := by
  intro flags ranges store h
  refine ⟨_, group_eq_of_inbounds flags ranges fun p hp => ⟨(h p hp).1.le, (h p hp).2⟩,
    ?_, ?_, lookup_publish _ store⟩
  · rw [List.map_map]
    exact List.map_id'' (fun p => rfl) ranges
  · intro e he
    obtain ⟨p, hp, rfl⟩ := List.mem_map.mp he
    obtain ⟨hlt, hle⟩ := h p hp
    refine ⟨div_nonneg (Nat.cast_nonneg _) (Nat.cast_nonneg _), ?_⟩
    apply div_le_one_of_le₀
    · have hcnt : countTarget flags p.2 ≤ p.2.stop - p.2.start := by
        have hfl := List.length_filter_le
          (fun i => has_flag (flags.getD i 0) TIMELY_TARGET)
          (List.range' p.2.start (p.2.stop - p.2.start))
        simpa [countTarget] using hfl
      exact_mod_cast hcnt
    · exact Nat.cast_nonneg _

/-- Closed instance of C4 at a concrete input. -/
theorem C4_one_entry_per_range_ratio_in_unit_interval_witness :
    ∃ pbr, group_target_participation [("A", ⟨0, 2⟩)] ⟨[0, 2]⟩ = some pbr ∧
      pbr.map (fun e => (e.1, e.2.1)) = [("A", ⟨0, 2⟩)] ∧
      (∀ e ∈ pbr, 0 ≤ e.2.2 ∧ e.2.2 ≤ 1) ∧
      (∀ (l : String) (v : ℚ),
        (set_participation_to_metrics pbr []).lookup l = some v →
        (∃ e ∈ pbr, e.1 = l ∧ e.2.2 = v) ∨ ([] : GaugeStore).lookup l = some v) :=
  C4_one_entry_per_range_ratio_in_unit_interval [0, 2] [("A", ⟨0, 2⟩)] [] (by decide)

/-! ## C5 -/

/-- C5 counterexample: the first iteration's fetch succeeds but its range
`[0,2)` exceeds the single flag byte, so the aggregation panics and the
spawned task dies (`false`): the second, well-formed iteration — which would
have set gauge "a" to 1 — is never processed, contradicting "no
per-iteration failure ever stops subsequent iterations". -/
theorem C5_counterexample :
    poll_loop [("a", ⟨0, 2⟩)]
        [FetchOutcome.fetchOk ⟨[5]⟩, FetchOutcome.fetchOk ⟨[3, 3]⟩] [] =
      ([], false) := by rfl

/-- C5 amended: a failure surfaced as an `Err` from the fetch/decode step
(network, schema, decode) is caught by the `match`, logged, and the loop
proceeds with the gauge store unchanged; but an aggregation (range) failure
panics and terminates the poll task, so later iterations never run. -/
theorem C5_fetch_errors_contained_range_panic_fatal :
    (∀ (ranges : List (String × URange)) (msg : String) (rest : List FetchOutcome)
        (store : GaugeStore),
        poll_loop ranges (FetchOutcome.fetchErr msg :: rest) store =
          poll_loop ranges rest store) ∧
    (∀ (ranges : List (String × URange)) (state : StatePartial) (rest : List FetchOutcome)
        (store : GaugeStore),
        group_target_participation ranges state = none →
        poll_loop ranges (FetchOutcome.fetchOk state :: rest) store = (store, false)) := by
  constructor
  · intro ranges msg rest store
    rfl
  · intro ranges state rest store hnone
    simp [poll_loop, poll_iteration, hnone]

/-- Closed instance of C5's amended theorem at a concrete input. -/
theorem C5_fetch_errors_contained_range_panic_fatal_witness :
    poll_loop [("b", ⟨0, 2⟩)] [FetchOutcome.fetchOk ⟨[5]⟩] [] = ([], false) :=
  C5_fetch_errors_contained_range_panic_fatal.2 [("b", ⟨0, 2⟩)] ⟨[5]⟩ [] [] (by rfl)

/-! ## C6 -/

/-- C6: a failed poll iteration — a fetch/decode `Err` or an aggregation
panic — performs no gauge update at all: the store after the iteration is
exactly the store before it. -/
theorem C6_failed_iteration_leaves_gauges_unchanged :
    ∀ (ranges : List (String × URange)) (f : FetchOutcome) (store : GaugeStore),
      iteration_failed ranges f → (poll_iteration ranges f store).1 = store := by
  intro ranges f store h
  cases f with
  | fetchErr msg => rfl
  | fetchOk state =>
    have hnone : group_target_participation ranges state = none := h
    simp [poll_iteration, hnone]

/-- Closed instance of C6 at a concrete input. -/
theorem C6_failed_iteration_leaves_gauges_unchanged_witness :
    (poll_iteration [] (FetchOutcome.fetchErr "connection refused") [("a", 1)]).1 =
      [("a", 1)] :=
  C6_failed_iteration_leaves_gauges_unchanged [] (FetchOutcome.fetchErr "connection refused")
    [("a", 1)] trivial

/-! ## C7 -/

/-- C7: every startup-phase failure — no range source given, failure to
obtain the ranges (`resolve_path_or_url` erring on the given file), failure
to parse the actually resolved ranges string, genesis fetch failing, or
config fetch failing — makes `main` return an error (terminating the
process), and the poll loop is never started. -/
theorem C7_startup_failures_are_fatal :
    ∀ (cli : Cli) (res : String → Except String String)
      (par : String → Except String (List (String × URange)))
      (gen con : Except String String) (fetches : List FetchOutcome) (store : GaugeStore),
      ((cli.ranges = none ∧ cli.ranges_file = none) ∨
        (cli.ranges = none ∧ ∃ p, cli.ranges_file = some p ∧
          ∃ e, res p = Except.error e) ∨
        (∃ s, resolve_ranges_str cli res = Except.ok s ∧
          ∃ e, par s = Except.error e) ∨
        (∃ e, gen = Except.error e) ∨
        (∃ e, con = Except.error e)) →
      ∃ e, run_main cli res par gen con fetches store = Except.error e := by
  intro cli res par gen con fetches store h
  rcases h with ⟨h1, h2⟩ | ⟨h1, p, hp, e0, hres⟩ | ⟨s, hs, e0, hpe⟩ |
    ⟨e0, hgen⟩ | ⟨e0, hcon⟩
  · refine ⟨"Must set --groups or --groups_file", ?_⟩
    have hr : resolve_ranges_str cli res =
        Except.error "Must set --groups or --groups_file" := by
      simp [resolve_ranges_str, h1, h2]
    simp [run_main, hr]
  · refine ⟨e0, ?_⟩
    have hr : resolve_ranges_str cli res = Except.error e0 := by
      simp [resolve_ranges_str, h1, hp, hres]
    simp [run_main, hr]
  · exact ⟨e0, by simp [run_main, hs, hpe]⟩
  · cases hr : resolve_ranges_str cli res with
    | error e => exact ⟨e, by simp [run_main, hr]⟩
    | ok s =>
      cases hp : par s with
      | error e => exact ⟨e, by simp [run_main, hr, hp]⟩
      | ok ranges => exact ⟨e0, by simp [run_main, hr, hp, hgen]⟩
  · cases hr : resolve_ranges_str cli res with
    | error e => exact ⟨e, by simp [run_main, hr]⟩
    | ok s =>
      cases hp : par s with
      | error e => exact ⟨e, by simp [run_main, hr, hp]⟩
      | ok ranges =>
        cases hg : gen with
        | error e => exact ⟨e, by simp [run_main, hr, hp, hg]⟩
        | ok g => exact ⟨e0, by simp [run_main, hr, hp, hg, hcon]⟩

/-- Closed instance of C7 at a concrete input: `--ranges` absent and
`--ranges-file` given, but resolving the file fails, so `main` errors
before spawning the poll task. -/
theorem C7_startup_failures_are_fatal_witness :
    ∃ e, run_main ⟨none, some "ranges.json", false⟩ (fun _ => Except.error "404 not found")
        (fun _ => Except.ok []) (Except.ok "") (Except.ok "") [] [] = Except.error e :=
  C7_startup_failures_are_fatal ⟨none, some "ranges.json", false⟩
    (fun _ => Except.error "404 not found") (fun _ => Except.ok [])
    (Except.ok "") (Except.ok "") [] []
    (Or.inr (Or.inl ⟨rfl, "ranges.json", rfl, "404 not found", rfl⟩))

/-! ## C8 -/

/-- In a list whose first components are strictly increasing, every
element's first component is at most the last element's. -/
lemma fst_le_getLast {α : Type} :
    ∀ (l : List (Nat × α)) (h : l ≠ []) (x : Nat × α), x ∈ l →
      List.Pairwise (fun p q => p.1 < q.1) l → x.1 ≤ (l.getLast h).1 := by
  intro l
  induction l with
  | nil => intro h; exact absurd rfl h
  | cons a t ih =>
    intro h x hx hp
    cases t with
    | nil =>
      rcases List.mem_singleton.mp hx with rfl
      exact le_refl _
    | cons b t' =>
      have hne : b :: t' ≠ [] := List.cons_ne_nil b t'
      have hgl : (a :: b :: t').getLast h = (b :: t').getLast hne :=
        List.getLast_cons hne
      rcases List.mem_cons.mp hx with rfl | hmem
      · have hlt := (List.pairwise_cons.mp hp).1 ((b :: t').getLast hne)
          (List.getLast_mem hne)
        rw [hgl]
        exact le_of_lt hlt
      · rw [hgl]
        exact ih hne x hmem (List.pairwise_cons.mp hp).2

/-- C8: on a strictly increasing schedule the fork resolver returns the
schema of the entry with the greatest activation epoch at most the queried
epoch (boundary inclusive), fails with `NoApplicableFork` when no entry
qualifies, and resolves the spec's `[(0,S0),(10,S1),(20,S2)]` examples as
stated. -/
theorem C8_fork_resolver_greatest_le :
    (∀ {α : Type} (schedule : List (Nat × α)) (epoch : Nat),
        List.Pairwise (fun p q => p.1 < q.1) schedule →
        (∃ p ∈ schedule, p.1 ≤ epoch) →
        ∃ q ∈ schedule, q.1 ≤ epoch ∧ resolveFork schedule epoch = Except.ok q.2 ∧
          ∀ r ∈ schedule, r.1 ≤ epoch → r.1 ≤ q.1) ∧
    (∀ {α : Type} (schedule : List (Nat × α)) (epoch : Nat),
        (∀ p ∈ schedule, epoch < p.1) →
        resolveFork schedule epoch = Except.error SchemaError.NoApplicableFork) ∧
    (resolveFork [(0, 0), (10, 1), (20, 2)] 9 = Except.ok 0 ∧
      resolveFork [(0, 0), (10, 1), (20, 2)] 10 = Except.ok 1 ∧
      resolveFork [(0, 0), (10, 1), (20, 2)] 19 = Except.ok 1 ∧
      resolveFork [(0, 0), (10, 1), (20, 2)] 20 = Except.ok 2 ∧
      resolveFork ([] : List (Nat × Nat)) 5 = Except.error SchemaError.NoApplicableFork ∧
      resolveFork [(10, 1), (20, 2)] 9 = Except.error SchemaError.NoApplicableFork) := by
  refine ⟨?_, ?_, rfl, rfl, rfl, rfl, rfl, rfl⟩
  · intro α schedule epoch hsorted hex
    obtain ⟨p, hp, hple⟩ := hex
    have hpfl : p ∈ schedule.filter (fun q => q.1 ≤ epoch) :=
      List.mem_filter.mpr ⟨hp, by simpa using hple⟩
    have hne : schedule.filter (fun q => q.1 ≤ epoch) ≠ [] :=
      List.ne_nil_of_mem hpfl
    have hgl := List.getLast_mem hne
    refine ⟨(schedule.filter (fun q => q.1 ≤ epoch)).getLast hne,
      (List.mem_filter.mp hgl).1, by simpa using (List.mem_filter.mp hgl).2, ?_, ?_⟩
    · unfold resolveFork
      rw [List.getLast?_eq_getLast _ hne]
    · intro r hr hrle
      have hrfl : r ∈ schedule.filter (fun q => q.1 ≤ epoch) :=
        List.mem_filter.mpr ⟨hr, by simpa using hrle⟩
      exact fst_le_getLast _ hne r hrfl (hsorted.filter _)
  · intro α schedule epoch hall
    have hnil : schedule.filter (fun q => q.1 ≤ epoch) = [] := by
      rw [List.filter_eq_nil_iff]
      intro p hp
      simpa using Nat.not_le.mpr (hall p hp)
    simp [resolveFork, hnil]

/-- Closed instance of C8's quantified part at the spec's example
schedule. -/
theorem C8_fork_resolver_greatest_le_witness :
    ∃ q ∈ [(0, 0), (10, 1), (20, 2)], q.1 ≤ 15 ∧
      resolveFork [(0, 0), (10, 1), (20, 2)] 15 = Except.ok q.2 ∧
      ∀ r ∈ [(0, 0), (10, 1), (20, 2)], r.1 ≤ 15 → r.1 ≤ q.1 :=
  C8_fork_resolver_greatest_le.1 [(0, 0), (10, 1), (20, 2)] 15
    (by decide) ⟨(0, 0), by decide, by decide⟩

/-! ## C9 -/

/-- A `Fixed` target found by `findField` lies inside the fixed region:
its slot position plus width is bounded by the running position plus the
remaining slot widths. -/
lemma findField_fixed_bound (target : String) :
    ∀ (schema : List FieldDescriptor) (pos0 vIdx w pos v : Nat),
      findField schema target pos0 vIdx = some (FieldKind.Fixed w, pos, v) →
      pos + w ≤ pos0 + (schema.map fun f => fieldSlotWidth f.kind).sum := by
  intro schema
  induction schema with
  | nil => intro pos0 vIdx w pos v h; simp [findField] at h
  | cons f rest ih =>
    intro pos0 vIdx w pos v h
    rw [List.map_cons, List.sum_cons]
    by_cases hn : f.name = target
    · simp only [findField, if_pos hn, Option.some.injEq, Prod.mk.injEq] at h
      obtain ⟨hk, hpos, hv⟩ := h
      rw [hk]
      simp only [fieldSlotWidth]
      omega
    · simp only [findField, if_neg hn] at h
      cases hk : f.kind with
      | Fixed w' =>
        rw [hk] at h
        simp only [] at h
        have hb := ih (pos0 + w') vIdx w pos v h
        have hw : fieldSlotWidth (FieldKind.Fixed w') = w' := rfl
        rw [hw]
        omega
      | Variable =>
        rw [hk] at h
        simp only [] at h
        have hb := ih (pos0 + 4) (vIdx + 1) w pos v h
        have hw : fieldSlotWidth FieldKind.Variable = 4 := rfl
        rw [hw]
        omega

/-- A `Variable` target found by `findField` has strictly fewer preceding
variable fields than the schema has variable offsets. -/
lemma findField_var_bound (target : String) (buf : List Nat) :
    ∀ (schema : List FieldDescriptor) (pos0 vIdx p v pos1 : Nat),
      findField schema target pos0 vIdx = some (FieldKind.Variable, p, v) →
      v < vIdx + (varOffsets buf schema pos1).length := by
  intro schema
  induction schema with
  | nil => intro pos0 vIdx p v pos1 h; simp [findField] at h
  | cons f rest ih =>
    intro pos0 vIdx p v pos1 h
    by_cases hn : f.name = target
    · simp only [findField, if_pos hn, Option.some.injEq, Prod.mk.injEq] at h
      obtain ⟨hk, hp, hv⟩ := h
      simp only [varOffsets, hk, List.length_cons]
      omega
    · simp only [findField, if_neg hn] at h
      cases hk : f.kind with
      | Fixed w' =>
        rw [hk] at h
        simp only [] at h
        have hb := ih (pos0 + w') vIdx p v (pos1 + w') h
        simpa [varOffsets, hk] using hb
      | Variable =>
        rw [hk] at h
        simp only [] at h
        have hb := ih (pos0 + 4) (vIdx + 1) p v (pos1 + 4) h
        simp only [varOffsets, hk, List.length_cons]
        omega

/-- When the target's name occurs in the schema, `findField` finds it. -/
lemma findField_some_of_mem (target : String) :
    ∀ (schema : List FieldDescriptor), (∃ f ∈ schema, f.name = target) →
      ∀ pos vIdx, ∃ t, findField schema target pos vIdx = some t := by
  intro schema
  induction schema with
  | nil =>
    intro h
    obtain ⟨f, hf, _⟩ := h
    cases hf
  | cons f rest ih =>
    intro h pos vIdx
    by_cases hn : f.name = target
    · exact ⟨(f.kind, pos, vIdx), by simp [findField, hn]⟩
    · obtain ⟨g, hg, hgn⟩ := h
      rcases List.mem_cons.mp hg with rfl | hmem
      · exact absurd hgn hn
      · cases hk : f.kind with
        | Fixed w =>
          obtain ⟨t, ht⟩ := ih ⟨g, hmem, hgn⟩ (pos + w) vIdx
          exact ⟨t, by simp [findField, hn, hk, ht]⟩
        | Variable =>
          obtain ⟨t, ht⟩ := ih ⟨g, hmem, hgn⟩ (pos + 4) (vIdx + 1)
          exact ⟨t, by simp [findField, hn, hk, ht]⟩

/-- Adjacent elements of a chain-checked offsets list are ordered. -/
lemma chainOk_adj :
    ∀ (offs : List Nat), offsetsChainOk offs = true →
      ∀ i, i + 1 < offs.length → offs.getD i 0 ≤ offs.getD (i + 1) 0 := by
  intro offs
  induction offs with
  | nil => intro _ i hi; simp at hi
  | cons a t ih =>
    intro h i hi
    cases t with
    | nil => simp at hi
    | cons b t' =>
      simp only [offsetsChainOk, Bool.and_eq_true, decide_eq_true_eq] at h
      obtain ⟨hab, hrest⟩ := h
      cases i with
      | zero => simpa using hab
      | succ j =>
        have hj := ih hrest j (by simpa using hi)
        simpa using hj

/-- Unpacking of the step-4 validation. -/
lemma offsetsValid_spec (offs : List Nat) (fixedLen bufLen : Nat)
    (h : offsetsValid offs fixedLen bufLen = true) :
    (∀ o ∈ offs, fixedLen ≤ o ∧ o ≤ bufLen) ∧ offsetsChainOk offs = true := by
  simp only [offsetsValid, Bool.and_eq_true, List.all_eq_true] at h
  obtain ⟨hall, hchain⟩ := h
  refine ⟨fun o ho => ?_, hchain⟩
  have := hall o ho
  simpa using this

/-- A range the navigator accepts is ordered and lies inside the buffer. -/
lemma extractRange_ok_bounds (buf : List Nat) (schema : List FieldDescriptor)
    (target : String) (r : URange) (h : extractRange buf schema target = Except.ok r) :
    r.start ≤ r.stop ∧ r.stop ≤ buf.length := by
  unfold extractRange at h
  by_cases htr : buf.length < fixedRegionLength schema
  · simp [htr] at h
  · simp only [if_neg htr] at h
    cases hff : findField schema target 0 0 with
    | none => rw [hff] at h; simp at h
    | some t =>
      obtain ⟨k, pos, vIdx⟩ := t
      cases k with
      | Fixed w =>
        rw [hff] at h
        simp only [Except.ok.injEq] at h
        subst h
        have hb := findField_fixed_bound target schema 0 0 w pos vIdx hff
        have hfr : (schema.map fun f => fieldSlotWidth f.kind).sum =
          fixedRegionLength schema := rfl
        refine ⟨Nat.le_add_right pos w, ?_⟩
        show pos + w ≤ buf.length
        omega
      | Variable =>
        rw [hff] at h
        by_cases hval : offsetsValid (varOffsets buf schema 0 ++ [buf.length])
            (fixedRegionLength schema) buf.length = true
        · simp only [hval, if_true] at h
          simp only [Except.ok.injEq] at h
          subst h
          obtain ⟨hallb, hchain⟩ :=
            offsetsValid_spec (varOffsets buf schema 0 ++ [buf.length]) _ _ hval
          have hvb := findField_var_bound target buf schema 0 0 pos vIdx 0 hff
          have hlen : (varOffsets buf schema 0 ++ [buf.length]).length =
              (varOffsets buf schema 0).length + 1 := by simp
          have hadj := chainOk_adj _ hchain vIdx (by omega)
          have hstop : (varOffsets buf schema 0 ++ [buf.length]).getD (vIdx + 1) 0 ≤
              buf.length := by
            have hi : vIdx + 1 < (varOffsets buf schema 0 ++ [buf.length]).length := by omega
            have hmem : (varOffsets buf schema 0 ++ [buf.length]).getD (vIdx + 1) 0 ∈
                varOffsets buf schema 0 ++ [buf.length] := by
              rw [List.getD_eq_getElem _ 0 hi]
              exact List.getElem_mem hi
            exact (hallb _ hmem).2
          exact ⟨hadj, hstop⟩
        · simp [hval] at h

/-- An error the navigator reports for a target that exists in the schema
is `Truncated` or `InvalidOffsets`, never `UnknownField`. -/
lemma extractRange_error_cases (buf : List Nat) (schema : List FieldDescriptor)
    (target : String) (hmem : ∃ f ∈ schema, f.name = target) (e : NavError)
    (h : extractRange buf schema target = Except.error e) :
    e = NavError.Truncated ∨ e = NavError.InvalidOffsets := by
  unfold extractRange at h
  by_cases htr : buf.length < fixedRegionLength schema
  · simp only [if_pos htr, Except.error.injEq] at h
    exact Or.inl h.symm
  · simp only [if_neg htr] at h
    obtain ⟨t, ht⟩ := findField_some_of_mem target schema hmem 0 0
    rw [ht] at h
    obtain ⟨k, pos, vIdx⟩ := t
    cases k with
    | Fixed w => simp at h
    | Variable =>
      by_cases hval : offsetsValid (varOffsets buf schema 0 ++ [buf.length])
          (fixedRegionLength schema) buf.length = true
      · simp [hval] at h
      · simp only [hval, if_false, Bool.false_eq_true, Except.error.injEq] at h
        exact Or.inr h.symm

/-- C9: for every buffer — truncated, with non-monotonic or out-of-range
offsets, or well-formed — and every schema and target, `extract` never
panics (never indexes out of bounds): it yields a slice that is a
contiguous in-bounds sub-range of the buffer, or a `DecodeError`
(`Truncated` / `InvalidOffsets`) when the target is a field of the schema
(`UnknownField` otherwise). -/
theorem C9_extract_never_reads_out_of_bounds :
    ∀ (buf : List Nat) (schema : List FieldDescriptor) (target : String),
      (∃ res, extract buf schema target = some res) ∧
      (∀ s, extract buf schema target = some (Except.ok s) →
        ∃ lo hi, lo ≤ hi ∧ hi ≤ buf.length ∧ s = (buf.drop lo).take (hi - lo)) ∧
      ((∃ f ∈ schema, f.name = target) →
        ∀ e, extract buf schema target = some (Except.error e) →
          e = NavError.Truncated ∨ e = NavError.InvalidOffsets) := by
  intro buf schema target
  cases hres : extractRange buf schema target with
  | error e =>
    refine ⟨⟨Except.error e, by simp [extract, hres]⟩, ?_, ?_⟩
    · intro s hs
      simp [extract, hres] at hs
    · intro hmem e' he'
      simp only [extract, hres, Option.some.injEq, Except.error.injEq] at he'
      subst he'
      exact extractRange_error_cases buf schema target hmem e hres
  | ok r =>
    obtain ⟨h1, h2⟩ := extractRange_ok_bounds buf schema target r hres
    have hslice : sliceRange buf r = some ((buf.drop r.start).take (r.stop - r.start)) :=
      sliceRange_eq_some buf r h1 h2
    refine ⟨⟨Except.ok ((buf.drop r.start).take (r.stop - r.start)),
      by simp [extract, hres, hslice]⟩, ?_, ?_⟩
    · intro s hs
      simp only [extract, hres, hslice, Option.map_some', Option.some.injEq,
        Except.ok.injEq] at hs
      exact ⟨r.start, r.stop, h1, h2, hs.symm⟩
    · intro hmem e he
      simp [extract, hres, hslice] at he

/-- Closed instance of C9 at a concrete schema and buffer: a two-field
container (`"a"` fixed 2-byte, `"body"` variable) whose variable payload is
the final two bytes. -/
theorem C9_extract_never_reads_out_of_bounds_witness :
    ∃ res, extract [1, 2, 6, 0, 0, 0, 9, 9]
        [⟨"a", FieldKind.Fixed 2⟩, ⟨"body", FieldKind.Variable⟩] "body" = some res :=
  (C9_extract_never_reads_out_of_bounds [1, 2, 6, 0, 0, 0, 9, 9]
    [⟨"a", FieldKind.Fixed 2⟩, ⟨"body", FieldKind.Variable⟩] "body").1

end BeaconMetricsGazer
